import Mathlib

/-!
Verification of `findCheapestPrice` from `src/realworld-dsa/cheapest_flights.cpp`.

The C++ function performs a cost-ordered search (Dijkstra on states
`(city, stops)`) over a directed graph given as a list of flights
`{from, to, cost}`.  We embed the function shallowly: the priority queue
becomes a list with minimum extraction, the 2-D `dist` table becomes a
function `Nat × Nat → Nat` initialised to `INT_MAX`, and the `while` loop
becomes a fuel-indexed recursion (a sufficient fuel is proved later).
Costs are modelled as naturals, matching the spec's non-negativity
assumption; additions are exact, and a separate flag records whenever a
computed sum exceeds `INT_MAX` (where the C++ `int` addition would
overflow).  A second flag records whether every container access used an
in-range index.
-/

namespace CheapestFlights

/-- `std::numeric_limits<int>::max()` for 32-bit `int`, the initial value of
every `dist` entry (cpp line 50). -/
def intMax : Nat := 2147483647

/-- A flight `(from, to, cost)`, one row of the `flights` argument. -/
abbrev Flight := Nat × Nat × Nat

/-- The adjacency list built at cpp lines 37-40: the outgoing
`(to, cost)` pairs of city `u`, in the order the flights appear. -/
def adjOf (fl : List Flight) (u : Nat) : List (Nat × Nat) :=
  (fl.filter (fun f => f.1 == u)).map (fun f => (f.2.1, f.2.2))

/-- The mutable state of the search: the priority queue of
`(cost, city, stops)` triples (cpp line 45), the `dist` table (cpp line 50),
and two instrumentation flags: `ov` becomes `true` once a computed
`new_cost` exceeds `INT_MAX` (the C++ `int` addition at line 72 would
overflow), and `ib` becomes `false` once a container is indexed out of
bounds (`adj` by a city `≥ n`, or `dist` outside `[0,n) × [0,k+2)`). -/
structure SState where
  pq : List (Nat × Nat × Nat)
  dist : Nat × Nat → Nat
  ov : Bool
  ib : Bool

/-- Extract an entry of minimal cost from the queue (the behaviour of
`pq.top(); pq.pop()` with the `CompareFlight` min-heap, cpp lines 55-56;
ties are broken towards the front of the list). Returns the chosen entry
and the remaining entries, or `none` if the queue is empty. -/
def popMin : List (Nat × Nat × Nat) → Option ((Nat × Nat × Nat) × List (Nat × Nat × Nat))
  | [] => none
  | e :: es =>
    match popMin es with
    | none => some (e, [])
    | some (m, rest) => if e.1 ≤ m.1 then some (e, es) else some (m, e :: rest)

/-- One iteration of the `for` loop over `adj[current_city]`
(cpp lines 69-79): compute `new_cost = c + e.2`, record the overflow and
bounds flags (the flag updates are identical in both branches, since the
C++ computes `new_cost` and reads `dist[next_city][current_stops + 1]`
before the comparison), and relax `dist[next_city][current_stops + 1]`
when strictly cheaper.

The addition here is exact (unbounded) natural addition, whereas the C++
`int` addition overflows when the sum exceeds `INT_MAX`; the `ov` flag
records exactly the first point at which the two diverge, and up to that
point the exact run and the C++ run coincide.  Program behaviour past an
overflow is modelled separately by `relaxOneW` below, which performs
two's-complement wrap-around; theorems about return values on domains
where overflow is possible are stated about that wrapping model. -/
def relaxOne (n cols c s : Nat) (st : SState) (e : Nat × Nat) : SState :=
  if c + e.2 < st.dist (e.1, s + 1) then
    { pq := (c + e.2, e.1, s + 1) :: st.pq
      dist := Function.update st.dist (e.1, s + 1) (c + e.2)
      ov := st.ov || decide (intMax < c + e.2)
      ib := st.ib && (decide (e.1 < n) && decide (s + 1 < cols)) }
  else
    { pq := st.pq
      dist := st.dist
      ov := st.ov || decide (intMax < c + e.2)
      ib := st.ib && (decide (e.1 < n) && decide (s + 1 < cols)) }

/-- The whole `for` loop over the outgoing edges (cpp lines 69-79). -/
def relaxAll (n cols c s : Nat) (es : List (Nat × Nat)) (st : SState) : SState :=
  es.foldl (relaxOne n cols c s) st

/-- The outcome of one iteration of the `while` loop: either the function
returns (`done`, carrying the returned value and the final flags), or the
search continues in a new state. -/
inductive StepOut where
  | done (r : Int) (ov ib : Bool)
  | next (st : SState)

/-- One iteration of the `while` loop (cpp lines 54-80): pop a minimal
entry; return its cost if it is the destination (line 59); discard it if
its stop count exceeds `k` (line 64); otherwise relax all outgoing edges.
An empty queue means the function returns `-1` (line 83). -/
def step (fl : List Flight) (n : Nat) (dst : Nat) (k : Int) (st : SState) : StepOut :=
  match popMin st.pq with
  | none => .done (-1) st.ov st.ib
  | some ((c, v, s), rest) =>
    if v = dst then .done (c : Int) st.ov st.ib
    else if k < (s : Int) then .next { st with pq := rest }
    else .next (relaxAll n ((k + 2).toNat) c s (adjOf fl v)
      { st with pq := rest, ib := st.ib && decide (v < n) })

/-- The `while` loop as a fuel-indexed recursion; `none` means the fuel ran
out (we prove below that the fuel supplied by `runAux` never does). -/
def loop (fl : List Flight) (n : Nat) (dst : Nat) (k : Int) :
    Nat → SState → Option (Int × Bool × Bool)
  | 0, _ => none
  | fuel + 1, st =>
    match step fl n dst k st with
    | .done r o b => some (r, o, b)
    | .next st1 => loop fl n dst k fuel st1

/-- The state after cpp lines 45-51: the queue holds the seed
`{0, src, 0}`, `dist[src][0] = 0` and every other entry is `INT_MAX`.
The initial `ib` flag records the bounds of the accesses made while
building `adj` (line 39) and writing `dist[src][0]` (line 51). -/
def initState (fl : List Flight) (n src cols : Nat) : SState :=
  { pq := [(0, src, 0)]
    dist := Function.update (fun _ => intMax) (src, 0) 0
    ov := false
    ib := fl.all (fun f => decide (f.1 < n)) && (decide (src < n) && decide (0 < cols)) }

/-- Fuel that is proved sufficient below: one more than a bound on
`|pq| + Σ dist` over the `n × (k+2)` table. -/
def fuelFor (n cols : Nat) : Nat := n * cols * intMax + 2

/-- The full search: returned value together with the two flags. -/
def runAux (n : Nat) (fl : List Flight) (src dst : Nat) (k : Int) :
    Option (Int × Bool × Bool) :=
  loop fl n dst k (fuelFor n ((k + 2).toNat)) (initState fl n src ((k + 2).toNat))

/-- The embedded `findCheapestPrice` (cpp lines 34-84). -/
def findCheapestPrice (n : Nat) (fl : List Flight) (src dst : Nat) (k : Int) : Int :=
  match runAux n fl src dst k with
  | some (r, _, _) => r
  | none => -1

/-- `true` iff some `new_cost = current_cost + flight_cost` computed during
the run exceeded `INT_MAX` (the C++ `int` addition would overflow). -/
def overflowHappened (n : Nat) (fl : List Flight) (src dst : Nat) (k : Int) : Bool :=
  match runAux n fl src dst k with
  | some (_, o, _) => o
  | none => true

/-- `true` iff every container access during the run was in bounds. -/
def accessesInBounds (n : Nat) (fl : List Flight) (src dst : Nat) (k : Int) : Bool :=
  match runAux n fl src dst k with
  | some (_, _, b) => b
  | none => false

/-! ### The wrap-faithful model

The exact model above computes `new_cost = current_cost + flight_cost`
with unbounded natural addition.  The C++ computes it with 32-bit signed
`int` addition (cpp line 72): when the mathematical sum exceeds
`INT_MAX`, the C++ addition overflows (undefined behaviour, which
mainstream targets compile to two's-complement wrap-around).  The
following second embedding performs that very wrap-around, so it
represents the program's behaviour on the inputs where the two differ;
`findCheapestPriceW_eq` below proves the two models coincide whenever
edge costs are bounded so that no computed sum can exceed `INT_MAX`. -/

/-- 32-bit two's-complement wrap-around: the representative of
`x mod 2^32` in `[-2^31, 2^31)`. -/
def wrap32 (x : Int) : Int := (x + 2147483648) % 4294967296 - 2147483648

/-- Search state of the wrapping model: queue entries carry `int`
(wrapped) costs and the `dist` table holds `int` values. -/
structure WState where
  pq : List (Int × Nat × Nat)
  dist : Nat × Nat → Int

/-- Minimum extraction for the wrapping model's queue. -/
def popMinW : List (Int × Nat × Nat) → Option ((Int × Nat × Nat) × List (Int × Nat × Nat))
  | [] => none
  | e :: es =>
    match popMinW es with
    | none => some (e, [])
    | some (m, rest) => if e.1 ≤ m.1 then some (e, es) else some (m, e :: rest)

/-- One relaxation (cpp lines 69-79) with the `int` addition modelled as
two's-complement wrap-around. -/
def relaxOneW (c : Int) (s : Nat) (st : WState) (e : Nat × Nat) : WState :=
  if wrap32 (c + (e.2 : Int)) < st.dist (e.1, s + 1) then
    { pq := (wrap32 (c + (e.2 : Int)), e.1, s + 1) :: st.pq
      dist := Function.update st.dist (e.1, s + 1) (wrap32 (c + (e.2 : Int))) }
  else st

def relaxAllW (c : Int) (s : Nat) (es : List (Nat × Nat)) (st : WState) : WState :=
  es.foldl (relaxOneW c s) st

inductive WStepOut where
  | done (r : Int)
  | next (st : WState)

/-- One iteration of the `while` loop in the wrapping model. -/
def stepW (fl : List Flight) (dst : Nat) (k : Int) (st : WState) : WStepOut :=
  match popMinW st.pq with
  | none => .done (-1)
  | some ((c, v, s), rest) =>
    if v = dst then .done c
    else if k < (s : Int) then .next { st with pq := rest }
    else .next (relaxAllW c s (adjOf fl v) { st with pq := rest })

def loopW (fl : List Flight) (dst : Nat) (k : Int) : Nat → WState → Option Int
  | 0, _ => none
  | fuel + 1, st =>
    match stepW fl dst k st with
    | .done r => some r
    | .next st1 => loopW fl dst k fuel st1

def initStateW (src : Nat) : WState :=
  { pq := [(0, src, 0)]
    dist := Function.update (fun _ => ((intMax : Nat) : Int)) (src, 0) 0 }

/-- `findCheapestPrice` with the `int` additions wrapped: the
wrap-faithful model of the compiled program. -/
def findCheapestPriceW (n : Nat) (fl : List Flight) (src dst : Nat) (k : Int) : Int :=
  match loopW fl dst k (fuelFor n ((k + 2).toNat)) (initStateW src) with
  | some r => r
  | none => -1

/-! ### Paths

A path is a list of flights, each a member of the flight list, chained
from a start node to an end node.  Its number of edges is its length; a
path with `m ≥ 1` edges passes through `m - 1` intermediate nodes, so
"at most `k` intermediate stops" is `length ≤ k + 1`. -/

/-- `Chain fl u es v`: `es` is a chained sequence of flights of `fl`
leading from `u` to `v`. -/
def Chain (fl : List Flight) : Nat → List Flight → Nat → Prop
  | u, [], v => u = v
  | u, f :: es, v => f ∈ fl ∧ f.1 = u ∧ Chain fl f.2.1 es v

/-- The total cost of a path. -/
def costOf (es : List Flight) : Nat := (es.map (fun f => f.2.2)).sum

/-- A path from `src` to `dst` that uses at most `k` intermediate stops. -/
def Admissible (fl : List Flight) (src dst : Nat) (k : Int) (es : List Flight) : Prop :=
  Chain fl src es dst ∧ (es.length : Int) ≤ k + 1

/-- The set of total costs of admissible paths. -/
def PathCosts (fl : List Flight) (src dst : Nat) (k : Int) : Set Nat :=
  { c | ∃ es, Admissible fl src dst k es ∧ costOf es = c }

/-- The example graph from `main` (cpp lines 99-108), with
New York = 0, London = 1, Paris = 2, Berlin = 3, Rome = 4. -/
def exampleFlights : List Flight :=
  [(0, 1, 500), (0, 2, 600), (1, 2, 150), (1, 3, 200),
   (2, 3, 180), (2, 4, 250), (3, 4, 300), (4, 0, 700)]

/-! ### Properties of the queue abstraction -/

theorem popMin_eq_none {l : List (Nat × Nat × Nat)} (h : popMin l = none) : l = [] := by
  cases l with
  | nil => rfl
  | cons e es =>
    exfalso
    simp only [popMin] at h
    cases hes : popMin es with
    | none => rw [hes] at h; exact Option.noConfusion h
    | some p =>
      rcases p with ⟨m, rest⟩
      rw [hes] at h
      by_cases hc : e.1 ≤ m.1 <;> simp [hc] at h

theorem popMin_perm {l : List (Nat × Nat × Nat)} {m : Nat × Nat × Nat}
    {rest : List (Nat × Nat × Nat)} (h : popMin l = some (m, rest)) :
    l.Perm (m :: rest) := by
  induction l generalizing m rest with
  | nil => simp [popMin] at h
  | cons e es ih =>
    simp only [popMin] at h
    cases hes : popMin es with
    | none =>
      rw [hes] at h
      cases h
      rw [popMin_eq_none hes]
    | some p =>
      rcases p with ⟨m1, rest1⟩
      rw [hes] at h
      by_cases hc : e.1 ≤ m1.1
      · simp only [hc, if_pos] at h
        cases h
        exact List.Perm.refl _
      · simp only [hc, if_neg, not_false_iff] at h
        cases h
        have h1 : es.Perm (m :: rest1) := ih hes
        exact (h1.cons e).trans (List.Perm.swap m e rest1)

theorem popMin_le {l : List (Nat × Nat × Nat)} {m : Nat × Nat × Nat}
    {rest : List (Nat × Nat × Nat)} (h : popMin l = some (m, rest)) :
    ∀ x ∈ l, m.1 ≤ x.1 := by
  induction l generalizing m rest with
  | nil => simp [popMin] at h
  | cons e es ih =>
    simp only [popMin] at h
    cases hes : popMin es with
    | none =>
      rw [hes] at h
      cases h
      intro x hx
      rcases List.mem_cons.mp hx with rfl | hx
      · exact le_refl _
      · rw [popMin_eq_none hes] at hx
        simp at hx
    | some p =>
      rcases p with ⟨m1, rest1⟩
      rw [hes] at h
      by_cases hc : e.1 ≤ m1.1
      · simp only [hc, if_pos] at h
        cases h
        intro x hx
        rcases List.mem_cons.mp hx with rfl | hx
        · exact le_refl _
        · exact le_trans hc (ih hes x hx)
      · simp only [hc, if_neg, not_false_iff] at h
        cases h
        intro x hx
        rcases List.mem_cons.mp hx with rfl | hx
        · exact le_of_lt (lt_of_not_le hc)
        · exact ih hes x hx

theorem popMin_mem {l : List (Nat × Nat × Nat)} {m : Nat × Nat × Nat}
    {rest : List (Nat × Nat × Nat)} (h : popMin l = some (m, rest)) : m ∈ l :=
  (popMin_perm h).symm.subset (List.mem_cons_self m rest)

theorem popMin_rest_subset {l : List (Nat × Nat × Nat)} {m : Nat × Nat × Nat}
    {rest : List (Nat × Nat × Nat)} (h : popMin l = some (m, rest)) :
    ∀ x ∈ rest, x ∈ l :=
  fun x hx => (popMin_perm h).symm.subset (List.mem_cons_of_mem m hx)

/-- An entry of the queue other than the popped one remains in the rest. -/
theorem popMin_mem_rest {l : List (Nat × Nat × Nat)} {m x : Nat × Nat × Nat}
    {rest : List (Nat × Nat × Nat)} (h : popMin l = some (m, rest))
    (hx : x ∈ l) (hne : x ≠ m) : x ∈ rest := by
  rcases List.mem_cons.mp ((popMin_perm h).subset hx) with rfl | hx1
  · exact absurd rfl hne
  · exact hx1

/-! ### Properties of paths -/

theorem chain_nil {fl : List Flight} {u : Nat} : Chain fl u [] u := rfl

theorem costOf_nil : costOf [] = 0 := rfl

theorem costOf_snoc (es : List Flight) (f : Flight) :
    costOf (es ++ [f]) = costOf es + f.2.2 := by
  simp [costOf]

/-- Extend a chain by one more flight at its end. -/
theorem chain_snoc {fl : List Flight} {u w : Nat} {es : List Flight} {f : Flight}
    (h : Chain fl u es w) (hf : f ∈ fl) (hw : f.1 = w) :
    Chain fl u (es ++ [f]) f.2.1 := by
  induction es generalizing u with
  | nil =>
    cases h
    exact ⟨hf, hw, rfl⟩
  | cons g es ih =>
    rcases h with ⟨hg, hgu, hrest⟩
    exact ⟨hg, hgu, ih hrest⟩

/-- Split off the last flight of a chain. -/
theorem chain_snoc_elim {fl : List Flight} {u v : Nat} {es : List Flight} {f : Flight}
    (h : Chain fl u (es ++ [f]) v) :
    Chain fl u es f.1 ∧ f ∈ fl ∧ v = f.2.1 := by
  induction es generalizing u with
  | nil =>
    rcases h with ⟨hf, hfu, hlast⟩
    cases hlast
    exact ⟨hfu.symm, hf, rfl⟩
  | cons g es ih =>
    rcases h with ⟨hg, hgu, hrest⟩
    rcases ih hrest with ⟨h1, h2, h3⟩
    exact ⟨⟨hg, hgu, h1⟩, h2, h3⟩

/-- Membership in the adjacency list of `u` is membership of the
corresponding flight in the flight list. -/
theorem adjOf_mem {fl : List Flight} {u : Nat} {e : Nat × Nat} :
    e ∈ adjOf fl u ↔ (u, e.1, e.2) ∈ fl := by
  constructor
  · intro h
    rcases List.mem_map.mp h with ⟨f, hf, he⟩
    rcases List.mem_filter.mp hf with ⟨hfl, hu⟩
    have hu' : f.1 = u := by simpa using hu
    rcases f with ⟨a, b, c⟩
    cases he
    cases hu'
    exact hfl
  · intro h
    apply List.mem_map.mpr
    refine ⟨(u, e.1, e.2), List.mem_filter.mpr ⟨h, by simp⟩, rfl⟩

/-! ### Properties of the relaxation loop -/

theorem relaxAll_cons {n cols c s : Nat} {e : Nat × Nat} {es : List (Nat × Nat)}
    {st : SState} :
    relaxAll n cols c s (e :: es) st = relaxAll n cols c s es (relaxOne n cols c s st e) :=
  rfl

theorem relaxOne_pq_mem {n cols c s : Nat} {st : SState} {e : Nat × Nat}
    {x : Nat × Nat × Nat} (hx : x ∈ st.pq) : x ∈ (relaxOne n cols c s st e).pq := by
  unfold relaxOne
  by_cases h : c + e.2 < st.dist (e.1, s + 1) <;>
    simp [h, List.mem_cons, hx]

theorem relaxOne_dist_le {n cols c s : Nat} {st : SState} {e : Nat × Nat} (p : Nat × Nat) :
    (relaxOne n cols c s st e).dist p ≤ st.dist p := by
  unfold relaxOne
  by_cases h : c + e.2 < st.dist (e.1, s + 1)
  · simp only [h, if_pos]
    by_cases hp : p = (e.1, s + 1)
    · subst hp
      simp only [Function.update_same]
      exact le_of_lt h
    · simp [Function.update_noteq hp]
  · simp [h]

theorem relaxOne_dist_other {n cols c s : Nat} {st : SState} {e : Nat × Nat}
    {p : Nat × Nat} (hp : p.2 ≠ s + 1) :
    (relaxOne n cols c s st e).dist p = st.dist p := by
  unfold relaxOne
  by_cases h : c + e.2 < st.dist (e.1, s + 1)
  · have hne : p ≠ (e.1, s + 1) := fun hq => hp (by rw [hq])
    simp [h, Function.update_noteq hne]
  · simp [h]

/-- Every queue entry after one relaxation is an old entry or the freshly
pushed `(new_cost, next_city, stops + 1)`, pushed under the strict
improvement test against a `dist` entry of the pre-state. -/
theorem relaxOne_pq_new {n cols c s : Nat} {st : SState} {e : Nat × Nat}
    {x : Nat × Nat × Nat} (hx : x ∈ (relaxOne n cols c s st e).pq) :
    x ∈ st.pq ∨ (x = (c + e.2, e.1, s + 1) ∧ c + e.2 < st.dist (e.1, s + 1)) := by
  unfold relaxOne at hx
  by_cases h : c + e.2 < st.dist (e.1, s + 1)
  · rw [if_pos h] at hx
    rcases List.mem_cons.mp hx with rfl | hx1
    · exact Or.inr ⟨rfl, h⟩
    · exact Or.inl hx1
  · rw [if_neg h] at hx
    exact Or.inl hx

/-- Each `dist` entry after one relaxation either kept its value or is
witnessed by a queue entry holding exactly the new value. -/
theorem relaxOne_dist_witness {n cols c s : Nat} {st : SState} {e : Nat × Nat}
    (p : Nat × Nat) :
    (relaxOne n cols c s st e).dist p = st.dist p ∨
      ((relaxOne n cols c s st e).dist p, p.1, p.2) ∈ (relaxOne n cols c s st e).pq := by
  unfold relaxOne
  by_cases h : c + e.2 < st.dist (e.1, s + 1)
  · by_cases hp : p = (e.1, s + 1)
    · subst hp
      rw [if_pos h]
      right
      simp only [Function.update_same]
      exact List.mem_cons_self _ _
    · rw [if_pos h]
      left
      simp [Function.update_noteq hp]
  · rw [if_neg h]
    exact Or.inl rfl

theorem relaxAll_pq_mem {n cols c s : Nat} {es : List (Nat × Nat)} {st : SState}
    {x : Nat × Nat × Nat} (hx : x ∈ st.pq) : x ∈ (relaxAll n cols c s es st).pq := by
  induction es generalizing st with
  | nil => exact hx
  | cons e es ih => exact ih (relaxOne_pq_mem hx)

theorem relaxAll_dist_le {n cols c s : Nat} {es : List (Nat × Nat)} {st : SState}
    (p : Nat × Nat) : (relaxAll n cols c s es st).dist p ≤ st.dist p := by
  induction es generalizing st with
  | nil => exact le_refl _
  | cons e es ih =>
    rw [relaxAll_cons]
    exact le_trans (@ih (relaxOne n cols c s st e)) (relaxOne_dist_le p)

theorem relaxAll_dist_other {n cols c s : Nat} {es : List (Nat × Nat)} {st : SState}
    {p : Nat × Nat} (hp : p.2 ≠ s + 1) :
    (relaxAll n cols c s es st).dist p = st.dist p := by
  induction es generalizing st with
  | nil => rfl
  | cons e es ih =>
    rw [relaxAll_cons, ih, relaxOne_dist_other hp]

/-- Every queue entry after the whole relaxation loop is an old entry or a
fresh `(c + cost, to, s + 1)` for one of the traversed edges, pushed only
below `INT_MAX` (assuming all `dist` entries are bounded by `INT_MAX`). -/
theorem relaxAll_pq_new {n cols c s : Nat} {es : List (Nat × Nat)} {st : SState}
    (hle : ∀ p, st.dist p ≤ intMax) {x : Nat × Nat × Nat}
    (hx : x ∈ (relaxAll n cols c s es st).pq) :
    x ∈ st.pq ∨ ∃ e ∈ es, x = (c + e.2, e.1, s + 1) ∧ c + e.2 < intMax := by
  induction es generalizing st with
  | nil => exact Or.inl hx
  | cons e es ih =>
    rw [relaxAll_cons] at hx
    have hle1 : ∀ p, (relaxOne n cols c s st e).dist p ≤ intMax :=
      fun p => le_trans (relaxOne_dist_le p) (hle p)
    rcases ih hle1 hx with h | ⟨e1, he1, hx1⟩
    · rcases relaxOne_pq_new h with h1 | ⟨h1, h2⟩
      · exact Or.inl h1
      · exact Or.inr ⟨e, List.mem_cons_self e es, h1, lt_of_lt_of_le h2 (hle _)⟩
    · exact Or.inr ⟨e1, List.mem_cons_of_mem e he1, hx1⟩

/-- After the relaxation loop, every traversed edge has been relaxed:
`dist[to][s+1] ≤ c + cost`. -/
theorem relaxAll_relaxed {n cols c s : Nat} {es : List (Nat × Nat)} {st : SState} :
    ∀ e ∈ es, (relaxAll n cols c s es st).dist (e.1, s + 1) ≤ c + e.2 := by
  induction es generalizing st with
  | nil => intro e he; simp at he
  | cons e1 es ih =>
    intro e he
    rcases List.mem_cons.mp he with rfl | he1
    · have h1 : (relaxOne n cols c s st e).dist (e.1, s + 1) ≤ c + e.2 := by
        unfold relaxOne
        by_cases h : c + e.2 < st.dist (e.1, s + 1)
        · rw [if_pos h]
          simp [Function.update_same]
        · rw [if_neg h]
          exact le_of_not_lt h
      rw [relaxAll_cons]
      exact le_trans (@relaxAll_dist_le n cols c s es (relaxOne n cols c s st e) (e.1, s + 1)) h1
    · rw [relaxAll_cons]
      exact ih e he1

theorem relaxAll_dist_witness {n cols c s : Nat} {es : List (Nat × Nat)} {st : SState}
    (p : Nat × Nat) :
    (relaxAll n cols c s es st).dist p = st.dist p ∨
      ((relaxAll n cols c s es st).dist p, p.1, p.2) ∈ (relaxAll n cols c s es st).pq := by
  induction es generalizing st with
  | nil => exact Or.inl rfl
  | cons e es ih =>
    rw [relaxAll_cons]
    rcases @ih (relaxOne n cols c s st e) with h | h
    · rcases @relaxOne_dist_witness n cols c s st e p with h1 | h1
      · exact Or.inl (h.trans h1)
      · rw [h]
        exact Or.inr (relaxAll_pq_mem h1)
    · exact Or.inr h

/-! ### The search invariant -/

/-- The invariant maintained by every iteration of the `while` loop.

* `pqSound`: every queue entry `(c, v, s)` is the exact cost of an actual
  chain of `s` flights from `src` to `v` with at most `k` intermediate
  stops (`s ≤ k + 1` edges), and `c < INT_MAX`.
* `distLe`: `dist` entries never exceed their initial value `INT_MAX`.
* `src0`: `dist[src][0]` stays `0` (relaxations only write stop counts `≥ 1`).
* `frontier`: an improvable state `(v, s)` with `s ≤ k` is either still
  pending in the queue at exactly its current cost, or it has been
  expanded: all its outgoing edges are relaxed with respect to it.
* `dstPend`: a destination state is never expanded (popping it returns),
  so once recorded in `dist` it is always pending in the queue. -/
structure Inv (fl : List Flight) (src dst : Nat) (k : Int) (st : SState) : Prop where
  pqSound : ∀ x ∈ st.pq, ∃ es, Chain fl src es x.2.1 ∧ es.length = x.2.2 ∧
      costOf es = x.1 ∧ (x.2.2 : Int) ≤ k + 1 ∧ x.1 < intMax
  distLe : ∀ p, st.dist p ≤ intMax
  src0 : st.dist (src, 0) = 0
  frontier : ∀ (v s : Nat), (s : Int) ≤ k → st.dist (v, s) < intMax →
      (st.dist (v, s), v, s) ∈ st.pq ∨
        ∀ e ∈ adjOf fl v, st.dist (e.1, s + 1) ≤ st.dist (v, s) + e.2
  dstPend : ∀ (s : Nat), st.dist (dst, s) < intMax → (st.dist (dst, s), dst, s) ∈ st.pq

theorem inv_init {fl : List Flight} {src dst : Nat} {k : Int} {n cols : Nat}
    (hk : -1 ≤ k) : Inv fl src dst k (initState fl n src cols) := by
  constructor
  · intro x hx
    simp only [initState, List.mem_singleton] at hx
    subst hx
    refine ⟨[], chain_nil, rfl, rfl, ?_, ?_⟩
    · show ((0 : Nat) : Int) ≤ k + 1
      simp only [Nat.cast_zero]
      omega
    · show (0 : Nat) < intMax
      decide
  · intro p
    by_cases hp : p = (src, 0)
    · subst hp
      simp [initState, Function.update_same, intMax]
    · simp [initState, Function.update_noteq hp]
  · simp [initState, Function.update_same]
  · intro v s _ hlt
    by_cases hp : ((v, s) : Nat × Nat) = (src, 0)
    · have h1 : v = src := congrArg Prod.fst hp
      have h2 : s = 0 := congrArg Prod.snd hp
      subst h1
      subst h2
      left
      simp [initState, Function.update_same]
    · exfalso
      simp [initState, Function.update_noteq hp] at hlt
  · intro s hlt
    by_cases hp : ((dst, s) : Nat × Nat) = (src, 0)
    · have h1 : dst = src := congrArg Prod.fst hp
      have h2 : s = 0 := congrArg Prod.snd hp
      subst h1
      subst h2
      simp [initState, Function.update_same]
    · exfalso
      simp [initState, Function.update_noteq hp] at hlt

/-- Discarding a stops-exceeded entry (cpp lines 64-66) preserves the
invariant. -/
theorem inv_guard {fl : List Flight} {src dst : Nat} {k : Int} {st : SState}
    {c v s : Nat} {rest : List (Nat × Nat × Nat)} (hInv : Inv fl src dst k st)
    (hpop : popMin st.pq = some ((c, v, s), rest))
    (hv : v ≠ dst) (hs : k < (s : Int)) :
    Inv fl src dst k { st with pq := rest } := by
  constructor
  · intro x hx
    exact hInv.pqSound x (popMin_rest_subset hpop x hx)
  · exact hInv.distLe
  · exact hInv.src0
  · intro v1 s1 hs1 hlt
    rcases hInv.frontier v1 s1 hs1 hlt with hw | hd
    · left
      refine popMin_mem_rest hpop hw ?_
      intro hq
      have : s1 = s := congrArg (fun y => y.2.2) hq
      omega
    · exact Or.inr hd
  · intro s1 hlt
    refine popMin_mem_rest hpop (hInv.dstPend s1 hlt) ?_
    intro hq
    exact hv (congrArg (fun y => y.2.1) hq).symm

/-- Expanding a popped entry (cpp lines 69-79) preserves the invariant. -/
theorem inv_expand {fl : List Flight} {src dst : Nat} {k : Int} {n : Nat} {st : SState}
    {c v s : Nat} {rest : List (Nat × Nat × Nat)} (hInv : Inv fl src dst k st)
    (hpop : popMin st.pq = some ((c, v, s), rest))
    (hv : v ≠ dst) (hs : (s : Int) ≤ k) :
    Inv fl src dst k (relaxAll n ((k + 2).toNat) c s (adjOf fl v)
      { st with pq := rest, ib := st.ib && decide (v < n) }) := by
  set cols := (k + 2).toNat with hcols
  set stMid : SState := { st with pq := rest, ib := st.ib && decide (v < n) } with hmid
  have hmid_dist : stMid.dist = st.dist := rfl
  have hmid_pq : stMid.pq = rest := rfl
  have hle_mid : ∀ p, stMid.dist p ≤ intMax := hInv.distLe
  have hsound_pop := hInv.pqSound (c, v, s) (popMin_mem hpop)
  constructor
  · intro x hx
    rcases relaxAll_pq_new hle_mid hx with hold | ⟨e, he, rfl, hlt⟩
    · exact hInv.pqSound x (popMin_rest_subset hpop x hold)
    · rcases hsound_pop with ⟨es, hch, hlen, hcost, hk1, _⟩
      refine ⟨es ++ [(v, e.1, e.2)], ?_, ?_, ?_, ?_, hlt⟩
      · exact chain_snoc hch (adjOf_mem.mp he) rfl
      · simp [List.length_append, hlen]
      · simp [costOf_snoc, hcost]
      · show ((s + 1 : Nat) : Int) ≤ k + 1
        push_cast
        omega
  · intro p
    exact le_trans (relaxAll_dist_le p) (hInv.distLe p)
  · rw [relaxAll_dist_other (by simp), hmid_dist]
    exact hInv.src0
  · intro v1 s1 hs1 hlt
    rcases relaxAll_dist_witness ((v1, s1) : Nat × Nat) with heq | hw
    · rw [heq, hmid_dist] at hlt ⊢
      rcases hInv.frontier v1 s1 hs1 hlt with hw | hd
      · by_cases hq : ((st.dist (v1, s1), v1, s1) : Nat × Nat × Nat) = (c, v, s)
        · -- the popped entry is the pending witness: it is now expanded
          right
          have hv1 : v1 = v := congrArg (fun y => y.2.1) hq
          have hs1s : s1 = s := congrArg (fun y => y.2.2) hq
          have hcd : st.dist (v1, s1) = c := congrArg (fun y => y.1) hq
          subst hv1
          subst hs1s
          intro e he
          rw [hcd]
          exact relaxAll_relaxed e he
        · left
          exact relaxAll_pq_mem (popMin_mem_rest hpop hw hq)
      · right
        intro e he
        exact le_trans (relaxAll_dist_le (e.1, s1 + 1)) (hd e he)
    · exact Or.inl hw
  · intro s1 hlt
    rcases relaxAll_dist_witness ((dst, s1) : Nat × Nat) with heq | hw
    · rw [heq, hmid_dist] at hlt ⊢
      refine relaxAll_pq_mem (popMin_mem_rest hpop (hInv.dstPend s1 hlt) ?_)
      intro hq
      exact hv (congrArg (fun y => y.2.1) hq).symm
    · exact hw

/-- One loop iteration preserves the invariant. -/
theorem inv_step {fl : List Flight} {n src dst : Nat} {k : Int} {st st1 : SState}
    (hInv : Inv fl src dst k st) (h : step fl n dst k st = .next st1) :
    Inv fl src dst k st1 := by
  cases hpop : popMin st.pq with
  | none =>
    simp only [step, hpop] at h
    exact StepOut.noConfusion h
  | some pr =>
    rcases pr with ⟨⟨c, v, s⟩, rest⟩
    simp only [step, hpop] at h
    by_cases hv : v = dst
    · rw [if_pos hv] at h
      exact StepOut.noConfusion h
    · rw [if_neg hv] at h
      by_cases hs : k < (s : Int)
      · rw [if_pos hs] at h
        cases h
        exact inv_guard hInv hpop hv hs
      · rw [if_neg hs] at h
        cases h
        exact inv_expand hInv hpop hv (le_of_not_lt hs)

/-! ### Completeness: the frontier covers every cheap admissible path -/

/-- For every chain of at most `k + 1` flights from `src` whose total cost
is below `INT_MAX`, either its endpoint state is recorded in `dist` at no
greater cost, or some queue entry costs no more than the chain. -/
theorem inv_reach {fl : List Flight} {src dst : Nat} {k : Int} {st : SState}
    (hInv : Inv fl src dst k st) (es : List Flight) :
    ∀ (w : Nat), Chain fl src es w → (es.length : Int) ≤ k + 1 →
      costOf es < intMax →
      st.dist (w, es.length) ≤ costOf es ∨ ∃ x ∈ st.pq, x.1 ≤ costOf es := by
  induction es using List.reverseRecOn with
  | nil =>
    intro w hch _ _
    cases hch
    left
    exact le_of_eq hInv.src0
  | append_singleton es f ih =>
    intro w hch hlen hcost
    obtain ⟨hch1, hf, rfl⟩ := chain_snoc_elim hch
    have hlen' : ((es ++ [f]).length : Int) = (es.length : Int) + 1 := by
      push_cast [List.length_append, List.length_singleton]
      ring
    have hlen1 : (es.length : Int) ≤ k + 1 := by omega
    have hlenk : (es.length : Int) ≤ k := by omega
    have hsub : costOf es ≤ costOf (es ++ [f]) := by
      rw [costOf_snoc]
      exact Nat.le_add_right _ _
    have hcost1 : costOf es < intMax := lt_of_le_of_lt hsub hcost
    rcases ih f.1 hch1 hlen1 hcost1 with hd | hq
    · have hlt : st.dist (f.1, es.length) < intMax := lt_of_le_of_lt hd hcost1
      rcases hInv.frontier f.1 es.length hlenk hlt with hw | hrelax
      · exact Or.inr ⟨_, hw, le_trans hd hsub⟩
      · left
        have he : ((f.2.1, f.2.2) : Nat × Nat) ∈ adjOf fl f.1 := adjOf_mem.mpr hf
        have h1 := hrelax (f.2.1, f.2.2) he
        have h2 : st.dist (f.2.1, es.length + 1) ≤ costOf es + f.2.2 :=
          le_trans h1 (Nat.add_le_add_right hd _)

        rw [List.length_append, List.length_singleton, costOf_snoc]
        exact h2
    · exact Or.inr ⟨hq.choose, hq.choose_spec.1, le_trans hq.choose_spec.2 hsub⟩

/-- While the invariant holds, every admissible path of cost below
`INT_MAX` is covered by a queue entry of no greater cost. -/
theorem frontier_cover {fl : List Flight} {src dst : Nat} {k : Int} {st : SState}
    (hInv : Inv fl src dst k st) {es : List Flight} (hch : Chain fl src es dst)
    (hlen : (es.length : Int) ≤ k + 1) (hcost : costOf es < intMax) :
    ∃ x ∈ st.pq, x.1 ≤ costOf es := by
  rcases inv_reach hInv es dst hch hlen hcost with hd | hq
  · exact ⟨_, hInv.dstPend es.length (lt_of_le_of_lt hd hcost), hd⟩
  · exact hq

/-- Correctness of the `while` loop: if it completes within its fuel, then
either it returns `-1` and every admissible path costs at least `INT_MAX`,
or it returns the least admissible path cost (which is below `INT_MAX`). -/
theorem run_correct {fl : List Flight} {n src dst : Nat} {k : Int} :
    ∀ (fuel : Nat) (st : SState), Inv fl src dst k st →
      ∀ (r : Int) (o b : Bool), loop fl n dst k fuel st = some (r, o, b) →
      (r = -1 ∧ ∀ es, Admissible fl src dst k es → intMax ≤ costOf es) ∨
      (∃ m : Nat, r = (m : Int) ∧ m < intMax ∧ m ∈ PathCosts fl src dst k ∧
        ∀ c ∈ PathCosts fl src dst k, m ≤ c) := by
  intro fuel
  induction fuel with
  | zero =>
    intro st _ r o b h
    exact Option.noConfusion h
  | succ fuel ih =>
    intro st hInv r o b h
    rw [loop] at h
    cases hstep : step fl n dst k st with
    | next st1 =>
      rw [hstep] at h
      exact ih st1 (inv_step hInv hstep) r o b h
    | done r1 o1 b1 =>
      rw [hstep] at h
      have he := Option.some.inj h
      have hr : r1 = r := congrArg (fun y => y.1) he
      subst hr
      clear h he
      cases hpop : popMin st.pq with
      | none =>
        simp only [step, hpop, StepOut.done.injEq] at hstep
        obtain ⟨hr1, -, -⟩ := hstep
        left
        refine ⟨hr1.symm, ?_⟩
        intro es hadm
        by_contra hcl
        push_neg at hcl
        obtain ⟨x, hx, -⟩ := frontier_cover hInv hadm.1 hadm.2 hcl
        rw [popMin_eq_none hpop] at hx
        simp at hx
      | some pr =>
        rcases pr with ⟨⟨c, v, s⟩, rest⟩
        simp only [step, hpop] at hstep
        by_cases hv : v = dst
        · rw [if_pos hv] at hstep
          obtain ⟨hr1, -, -⟩ := StepOut.done.inj hstep
          subst hv
          right
          obtain ⟨es, hch, hlen, hcost, hk1, hlt⟩ :=
            hInv.pqSound (c, v, s) (popMin_mem hpop)
          refine ⟨c, hr1.symm, hlt, ⟨es, ⟨hch, hlen ▸ hk1⟩, hcost⟩, ?_⟩
          rintro c1 ⟨es1, hadm1, rfl⟩
          by_cases hcl : costOf es1 < intMax
          · obtain ⟨x, hx, hxle⟩ := frontier_cover hInv hadm1.1 hadm1.2 hcl
            exact le_trans (popMin_le hpop x hx) hxle
          · exact le_trans (le_of_lt hlt) (le_of_not_lt hcl)
        · rw [if_neg hv] at hstep
          by_cases hs : k < (s : Int)
          · rw [if_pos hs] at hstep
            exact StepOut.noConfusion hstep
          · rw [if_neg hs] at hstep
            exact StepOut.noConfusion hstep

/-! ### Coincidence of the exact and the wrapping model under bounded costs -/

/-- `wrap32` is the identity on the representable range. -/
theorem wrap32_eq_self {x : Int} (h1 : -2147483648 ≤ x) (h2 : x ≤ 2147483647) :
    wrap32 x = x := by
  unfold wrap32
  have h3 : (0 : Int) ≤ x + 2147483648 := by omega
  have h4 : x + 2147483648 < 4294967296 := by omega
  rw [Int.emod_eq_of_lt h3 h4]
  ring

/-- Cast a queue entry of the exact model into the wrapping model. -/
def castE (x : Nat × Nat × Nat) : Int × Nat × Nat := ((x.1 : Int), x.2.1, x.2.2)

/-- Minimum extraction commutes with casting the queue, because the cast
preserves the cost order. -/
theorem popMinW_map (l : List (Nat × Nat × Nat)) :
    popMinW (l.map castE) =
      Option.map (fun pr => (castE pr.1, pr.2.map castE)) (popMin l) := by
  induction l with
  | nil => rfl
  | cons e es ih =>
    simp only [List.map_cons, popMinW, popMin, ih]
    cases hes : popMin es with
    | none => rfl
    | some pr =>
      rcases pr with ⟨m, rest⟩
      by_cases h : e.1 ≤ m.1
      · have h1 : (castE e).1 ≤ (castE m).1 := by
          show (e.1 : Int) ≤ (m.1 : Int)
          exact_mod_cast h
        simp only [Option.map_some']
        rw [if_pos h1, if_pos h]
        rfl
      · have h1 : ¬ (castE e).1 ≤ (castE m).1 := by
          show ¬ (e.1 : Int) ≤ (m.1 : Int)
          exact_mod_cast h
        simp only [Option.map_some']
        rw [if_neg h1, if_neg h]
        rfl

/-- One relaxation with a non-overflowing sum behaves identically in the
exact and in the wrapping model. -/
theorem relaxOneW_pair {n cols c s : Nat} {st : SState} {stW : WState} {e : Nat × Nat}
    (hpq : stW.pq = st.pq.map castE)
    (hdist : ∀ p, stW.dist p = ((st.dist p : Nat) : Int))
    (hnc : c + e.2 ≤ intMax) :
    (relaxOneW (c : Int) s stW e).pq = (relaxOne n cols c s st e).pq.map castE ∧
    ∀ p, (relaxOneW (c : Int) s stW e).dist p
      = (((relaxOne n cols c s st e).dist p : Nat) : Int) := by
  have hw : wrap32 ((c : Int) + (e.2 : Int)) = ((c + e.2 : Nat) : Int) := by
    rw [← Nat.cast_add]
    apply wrap32_eq_self
    · have h0 : (0 : Int) ≤ ((c + e.2 : Nat) : Int) := Int.natCast_nonneg _
      omega
    · have h5 : ((c + e.2 : Nat) : Int) ≤ ((intMax : Nat) : Int) := by exact_mod_cast hnc
      have h6 : ((intMax : Nat) : Int) = 2147483647 := by norm_num [intMax]
      omega
  unfold relaxOneW relaxOne
  rw [hw]
  simp only [hdist]
  by_cases h : c + e.2 < st.dist (e.1, s + 1)
  · have h1 : ((c + e.2 : Nat) : Int) < ((st.dist (e.1, s + 1) : Nat) : Int) := by
      exact_mod_cast h
    rw [if_pos h1, if_pos h]
    constructor
    · simp [hpq, castE]
    · intro p
      by_cases hp : p = ((e.1, s + 1) : Nat × Nat)
      · subst hp
        simp [Function.update_same]
      · simp [Function.update_noteq hp, hdist]
  · have h1 : ¬ ((c + e.2 : Nat) : Int) < ((st.dist (e.1, s + 1) : Nat) : Int) := by
      exact_mod_cast h
    rw [if_neg h1, if_neg h]
    exact ⟨hpq, hdist⟩

/-- The whole relaxation loop coincides in both models when none of its
sums overflows. -/
theorem relaxAllW_pair {n cols c s : Nat} {es : List (Nat × Nat)} {st : SState}
    {stW : WState} (hpq : stW.pq = st.pq.map castE)
    (hdist : ∀ p, stW.dist p = ((st.dist p : Nat) : Int))
    (hes : ∀ e ∈ es, c + e.2 ≤ intMax) :
    (relaxAllW (c : Int) s es stW).pq = (relaxAll n cols c s es st).pq.map castE ∧
    ∀ p, (relaxAllW (c : Int) s es stW).dist p
      = (((relaxAll n cols c s es st).dist p : Nat) : Int) := by
  induction es generalizing st stW with
  | nil => exact ⟨hpq, hdist⟩
  | cons e es ih =>
    rw [relaxAll_cons]
    have hWcons : relaxAllW (c : Int) s (e :: es) stW
        = relaxAllW (c : Int) s es (relaxOneW (c : Int) s stW e) := rfl
    rw [hWcons]
    obtain ⟨h1, h2⟩ := @relaxOneW_pair n cols c s st stW e hpq hdist
      (hes e (List.mem_cons_self e es))
    exact ih h1 h2 (fun e1 he1 => hes e1 (List.mem_cons_of_mem e he1))

/-- While every queue entry's cost is bounded by `stops * B` with
`(k + 2) * B ≤ INT_MAX`, no sum overflows, and the wrapping loop computes
exactly the result of the exact loop. -/
theorem loopW_pair {fl : List Flight} {n src dst : Nat} {k : Int} {B : Nat}
    (hB : ∀ f ∈ fl, f.2.2 ≤ B) (hbound : (k + 2).toNat * B ≤ intMax) :
    ∀ (fuel : Nat) (st : SState) (stW : WState),
      Inv fl src dst k st → (∀ x ∈ st.pq, x.1 ≤ x.2.2 * B) →
      stW.pq = st.pq.map castE →
      (∀ p, stW.dist p = ((st.dist p : Nat) : Int)) →
      loopW fl dst k fuel stW = Option.map (fun out => out.1) (loop fl n dst k fuel st) := by
  intro fuel
  induction fuel with
  | zero =>
    intro st stW _ _ _ _
    rfl
  | succ fuel ih =>
    intro st stW hInv hpqb hpq hdist
    rw [loopW, loop]
    cases hpop : popMin st.pq with
    | none =>
      have hpopW : popMinW stW.pq = none := by
        rw [hpq, popMinW_map, hpop]
        rfl
      simp only [stepW, step, hpop, hpopW]
      rfl
    | some pr =>
      rcases pr with ⟨⟨c, v, s⟩, rest⟩
      have hpopW : popMinW stW.pq = some (((c : Int), v, s), rest.map castE) := by
        rw [hpq, popMinW_map, hpop]
        rfl
      simp only [stepW, step, hpop, hpopW]
      by_cases hv : v = dst
      · rw [if_pos hv, if_pos hv]
        rfl
      · rw [if_neg hv, if_neg hv]
        by_cases hs : k < (s : Int)
        · rw [if_pos hs, if_pos hs]
          refine ih { st with pq := rest } { stW with pq := rest.map castE }
            (inv_guard hInv hpop hv hs) ?_ rfl hdist
          intro x hx
          exact hpqb x (popMin_rest_subset hpop x hx)
        · rw [if_neg hs, if_neg hs]
          have hc : c ≤ s * B := hpqb (c, v, s) (popMin_mem hpop)
          have hsk : s + 1 ≤ (k + 2).toNat := by
            have h1 : s < (k + 2).toNat := by
              rw [Int.lt_toNat]
              omega
            omega
          have hsB : (s + 1) * B ≤ intMax :=
            le_trans (Nat.mul_le_mul_right B hsk) hbound
          have hnc : ∀ e ∈ adjOf fl v, c + e.2 ≤ intMax := by
            intro e he
            have h2 : e.2 ≤ B := hB _ (adjOf_mem.mp he)
            have h3 : c + e.2 ≤ (s + 1) * B := by
              calc c + e.2 ≤ s * B + B := Nat.add_le_add hc h2
                _ = (s + 1) * B := by ring
            exact le_trans h3 hsB
          obtain ⟨h1, h2⟩ := @relaxAllW_pair n ((k + 2).toNat) c s (adjOf fl v)
            { st with pq := rest, ib := st.ib && decide (v < n) }
            { stW with pq := rest.map castE } rfl hdist hnc
          refine ih _ _ (inv_expand hInv hpop hv (le_of_not_lt hs)) ?_ h1 h2
          intro x hx
          have hleMid : ∀ p, (SState.mk rest st.dist st.ov
              (st.ib && decide (v < n))).dist p ≤ intMax := hInv.distLe
          rcases relaxAll_pq_new hleMid hx with hold | ⟨e, he, rfl, -⟩
          · exact hpqb x (popMin_rest_subset hpop x hold)
          · show c + e.2 ≤ (s + 1) * B
            have h4 : e.2 ≤ B := hB _ (adjOf_mem.mp he)
            calc c + e.2 ≤ s * B + B := Nat.add_le_add hc h4
              _ = (s + 1) * B := by ring

/-- Under the bounded-cost condition, the wrapping model computes the same
result as the exact model: no `int` addition of the run overflows. -/
theorem findCheapestPriceW_eq {n : Nat} {fl : List Flight} {src dst : Nat} {k : Int}
    {B : Nat} (hk : -1 ≤ k) (hB : ∀ f ∈ fl, f.2.2 ≤ B)
    (hbound : (k + 2).toNat * B ≤ intMax) :
    findCheapestPriceW n fl src dst k = findCheapestPrice n fl src dst k := by
  have hpair := @loopW_pair fl n src dst k B hB hbound (fuelFor n ((k + 2).toNat))
    (initState fl n src ((k + 2).toNat)) (initStateW src) (inv_init hk)
    (by
      intro x hx
      simp only [initState, List.mem_singleton] at hx
      subst hx
      exact Nat.zero_le _)
    (by simp [initStateW, initState, castE])
    (by
      intro p
      by_cases hp : p = ((src, 0) : Nat × Nat)
      · subst hp
        simp [initStateW, initState, Function.update_same]
      · simp [initStateW, initState, Function.update_noteq hp])
  unfold findCheapestPriceW findCheapestPrice runAux
  rw [hpair]
  cases loop fl n dst k (fuelFor n ((k + 2).toNat)) (initState fl n src ((k + 2).toNat)) with
  | none => rfl
  | some out =>
    rcases out with ⟨r, o, b⟩
    rfl

/-- The cost of a chain is bounded by its length times an edge-cost
bound. -/
theorem costOf_le_len_mul {fl : List Flight} {B : Nat} (hB : ∀ f ∈ fl, f.2.2 ≤ B) :
    ∀ (es : List Flight) (u v : Nat), Chain fl u es v → costOf es ≤ es.length * B := by
  intro es
  induction es with
  | nil =>
    intro u v _
    simp [costOf]
  | cons f es ih =>
    intro u v hch
    rcases hch with ⟨hf, _, hrest⟩
    have h1 := ih _ _ hrest
    have h2 := hB f hf
    have h3 : costOf (f :: es) = f.2.2 + costOf es := by
      simp [costOf]
    rw [h3]
    calc f.2.2 + costOf es ≤ B + es.length * B := Nat.add_le_add h2 h1
      _ = (es.length + 1) * B := by ring
      _ = (f :: es).length * B := by simp

/-- Under the bounded-cost condition, every admissible chain costs
strictly less than `INT_MAX`. -/
theorem costOf_lt_intMax_of_bounded {fl : List Flight} {src : Nat} {k : Int} {B : Nat}
    (hB : ∀ f ∈ fl, f.2.2 ≤ B) (hbound : (k + 2).toNat * B ≤ intMax)
    {es : List Flight} {w : Nat} (hch : Chain fl src es w)
    (hlen : (es.length : Int) ≤ k + 1) : costOf es < intMax := by
  have h1 : costOf es ≤ es.length * B := costOf_le_len_mul hB es src w hch
  have h2 : es.length + 1 ≤ (k + 2).toNat := by
    have h3 : es.length < (k + 2).toNat := by
      rw [Int.lt_toNat]
      omega
    omega
  have h3 : (es.length + 1) * B ≤ intMax :=
    le_trans (Nat.mul_le_mul_right B h2) hbound
  have h4 : es.length * B + B ≤ intMax := by
    rw [← Nat.succ_mul]
    exact h3
  have h5 : (0 : Nat) < intMax := by decide
  rcases Nat.eq_zero_or_pos B with hB0 | hB1
  · subst hB0
    simp at h1
    omega
  · omega

/-! ### Termination: a potential that decreases at every iteration -/

/-- The index set of the `n × (k + 2)` table `dist` (cpp line 50). -/
def tableOf (n cols : Nat) : Finset (Nat × Nat) := Finset.range n ×ˢ Finset.range cols

/-- Potential of a state: queue length plus the sum of the `dist` table.
Every iteration pops one entry, and every push strictly decreases one
in-table `dist` entry, so the potential strictly decreases. -/
def phi (n cols : Nat) (st : SState) : Nat :=
  st.pq.length + ∑ p ∈ tableOf n cols, st.dist p

theorem relaxOne_phi {n cols c s : Nat} {st : SState} {e : Nat × Nat}
    (he : e.1 < n) (hscol : s + 1 < cols) :
    phi n cols (relaxOne n cols c s st e) ≤ phi n cols st := by
  unfold relaxOne
  by_cases h : c + e.2 < st.dist (e.1, s + 1)
  · rw [if_pos h]
    have hmem : ((e.1, s + 1) : Nat × Nat) ∈ tableOf n cols := by
      simp [tableOf, Finset.mem_product, Finset.mem_range, he, hscol]
    have hupd : ∑ p ∈ tableOf n cols, Function.update st.dist (e.1, s + 1) (c + e.2) p
        = (c + e.2) + ∑ p ∈ (tableOf n cols).erase (e.1, s + 1), st.dist p := by
      rw [Finset.sum_update_of_mem hmem, Finset.sdiff_singleton_eq_erase]
    have hsum : ∑ p ∈ tableOf n cols, st.dist p
        = st.dist (e.1, s + 1) + ∑ p ∈ (tableOf n cols).erase (e.1, s + 1), st.dist p :=
      (Finset.add_sum_erase _ _ hmem).symm
    unfold phi
    simp only [List.length_cons]
    rw [hupd, hsum]
    omega
  · rw [if_neg h]
    exact le_refl _

theorem relaxAll_phi {n cols c s : Nat} {es : List (Nat × Nat)} {st : SState}
    (hes : ∀ e ∈ es, e.1 < n) (hscol : s + 1 < cols) :
    phi n cols (relaxAll n cols c s es st) ≤ phi n cols st := by
  induction es generalizing st with
  | nil => exact le_refl _
  | cons e es ih =>
    rw [relaxAll_cons]
    refine le_trans (ih fun e1 he1 => hes e1 (List.mem_cons_of_mem e he1)) ?_
    exact relaxOne_phi (hes e (List.mem_cons_self e es)) hscol

/-- Every continuing iteration strictly decreases the potential
(given in-range edge targets). -/
theorem step_phi {fl : List Flight} {n dst : Nat} {k : Int} {st st1 : SState}
    (hfl : ∀ f ∈ fl, f.2.1 < n)
    (h : step fl n dst k st = .next st1) :
    phi n ((k + 2).toNat) st1 < phi n ((k + 2).toNat) st := by
  cases hpop : popMin st.pq with
  | none =>
    simp only [step, hpop] at h
    exact StepOut.noConfusion h
  | some pr =>
    rcases pr with ⟨⟨c, v, s⟩, rest⟩
    have hlen : st.pq.length = rest.length + 1 := by
      have := (popMin_perm hpop).length_eq
      simpa using this
    simp only [step, hpop] at h
    by_cases hv : v = dst
    · rw [if_pos hv] at h
      exact StepOut.noConfusion h
    · rw [if_neg hv] at h
      by_cases hs : k < (s : Int)
      · rw [if_pos hs] at h
        cases h
        unfold phi
        simp only
        omega
      · rw [if_neg hs] at h
        cases h
        have hes : ∀ e ∈ adjOf fl v, e.1 < n := by
          intro e he
          exact hfl _ (adjOf_mem.mp he)
        have hscol : s + 1 < (k + 2).toNat := by
          rw [Int.lt_toNat]
          push_cast
          omega
        refine lt_of_le_of_lt (relaxAll_phi hes hscol) ?_
        unfold phi
        simp only
        omega

/-- With enough fuel the loop completes. -/
theorem loop_complete {fl : List Flight} {n dst : Nat} {k : Int}
    (hfl : ∀ f ∈ fl, f.2.1 < n) :
    ∀ (fuel : Nat) (st : SState), phi n ((k + 2).toNat) st < fuel →
      ∃ out, loop fl n dst k fuel st = some out := by
  intro fuel
  induction fuel with
  | zero =>
    intro st h
    exact absurd h (Nat.not_lt_zero _)
  | succ fuel ih =>
    intro st hlt
    rw [loop]
    cases hstep : step fl n dst k st with
    | done r o b => exact ⟨(r, o, b), rfl⟩
    | next st1 =>
      have h1 := step_phi hfl hstep
      exact ih st1 (by omega)

/-- The initial potential is below the supplied fuel. -/
theorem phi_init_lt {fl : List Flight} {n src cols : Nat} :
    phi n cols (initState fl n src cols) < fuelFor n cols := by
  have hb : ∑ p ∈ tableOf n cols,
      (Function.update (fun _ => intMax) ((src, 0) : Nat × Nat) 0) p
      ≤ (tableOf n cols).card * intMax := by
    rw [← smul_eq_mul]
    apply Finset.sum_le_card_nsmul
    intro p _
    by_cases hp : p = ((src, 0) : Nat × Nat)
    · subst hp
      simp [Function.update_same]
    · simp [Function.update_noteq hp]
  have hcard : (tableOf n cols).card = n * cols := by
    simp [tableOf]
  unfold phi initState fuelFor
  simp only [List.length_singleton]
  rw [hcard] at hb
  omega

/-- The search always completes: the supplied fuel is never exhausted. -/
theorem runAux_some {n : Nat} {fl : List Flight} {src dst : Nat} {k : Int}
    (hfl : ∀ f ∈ fl, f.2.1 < n) :
    ∃ out, runAux n fl src dst k = some out :=
  loop_complete hfl _ _ phi_init_lt

/-! ### The characterisation of `findCheapestPrice` -/

/-- Full characterisation: either the function returns `-1` and every
admissible path costs at least `INT_MAX`, or it returns the least
admissible path cost, which is below `INT_MAX`. -/
theorem findCheapestPrice_spec {n : Nat} {fl : List Flight} {src dst : Nat} {k : Int}
    (hfl : ∀ f ∈ fl, f.2.1 < n) (hk : -1 ≤ k) :
    (findCheapestPrice n fl src dst k = -1 ∧
      ∀ es, Admissible fl src dst k es → intMax ≤ costOf es) ∨
    (∃ m : Nat, findCheapestPrice n fl src dst k = (m : Int) ∧ m < intMax ∧
      m ∈ PathCosts fl src dst k ∧ ∀ c ∈ PathCosts fl src dst k, m ≤ c) := by
  obtain ⟨out, hout⟩ : ∃ out, runAux n fl src dst k = some out := runAux_some hfl
  rcases out with ⟨r, o, b⟩
  have hfc : findCheapestPrice n fl src dst k = r := by
    unfold findCheapestPrice
    rw [hout]
  unfold runAux at hout
  rcases run_correct _ _ (inv_init hk) r o b hout with ⟨hr, hall⟩ | ⟨m, hm, hlt, hmem, hmin⟩
  · exact Or.inl ⟨hfc.trans hr, hall⟩
  · exact Or.inr ⟨m, hfc.trans hm, hlt, hmem, hmin⟩

/-! ### Direct evaluation lemmas -/

/-- With `src = dst` the seed entry `{0, src, 0}` is popped first and the
check at cpp line 59 returns `0` immediately, for every `k` and any
flight list. -/
theorem findCheapestPrice_self (n : Nat) (fl : List Flight) (src : Nat) (k : Int) :
    findCheapestPrice n fl src src k = 0 := by
  unfold findCheapestPrice runAux fuelFor
  rw [loop]
  have hpop : popMin (initState fl n src ((k + 2).toNat)).pq
      = some ((0, src, 0), []) := rfl
  simp [step, hpop]

/-- With `k = -1` and `src ≠ dst`, the seed entry is popped, fails the
destination check, is discarded by the stops-exceeded guard
(`0 > -1`), and the queue empties: the function returns `-1`. -/
theorem findCheapestPrice_neg_one (n : Nat) (fl : List Flight) {src dst : Nat}
    (hne : src ≠ dst) : findCheapestPrice n fl src dst (-1) = -1 := by
  unfold findCheapestPrice runAux fuelFor
  rw [loop]
  have hpop : popMin (initState fl n src ((-1 + 2 : Int).toNat)).pq
      = some ((0, src, 0), []) := rfl
  have hguard : (-1 : Int) < ((0 : Nat) : Int) := by decide
  simp only [step, hpop, if_neg hne, hguard, if_pos]
  rw [loop]
  rfl

/-! ### The in-bounds flag -/

/-- The endpoint of a chain starting at a valid node is valid. -/
theorem chain_end_lt {fl : List Flight} {n : Nat} (hfl : ∀ f ∈ fl, f.2.1 < n) :
    ∀ (es : List Flight) (u v : Nat), Chain fl u es v → u < n → v < n := by
  intro es
  induction es with
  | nil =>
    intro u v hch hu
    cases hch
    exact hu
  | cons f es ih =>
    intro u v hch hu
    rcases hch with ⟨hf, _, hrest⟩
    exact ih _ _ hrest (hfl f hf)

theorem relaxAll_ib {n cols c s : Nat} {es : List (Nat × Nat)} {st : SState}
    (hib : st.ib = true) (hes : ∀ e ∈ es, e.1 < n) (hscol : s + 1 < cols) :
    (relaxAll n cols c s es st).ib = true := by
  induction es generalizing st with
  | nil => exact hib
  | cons e es ih =>
    rw [relaxAll_cons]
    refine ih ?_ fun e1 he1 => hes e1 (List.mem_cons_of_mem e he1)
    have he : e.1 < n := hes e (List.mem_cons_self e es)
    unfold relaxOne
    by_cases h : c + e.2 < st.dist (e.1, s + 1)
    · rw [if_pos h]
      simp [hib, he, hscol]
    · rw [if_neg h]
      simp [hib, he, hscol]

/-- While the invariant holds (with valid inputs), the in-bounds flag
stays `true` through the whole run. -/
theorem run_ib {fl : List Flight} {n src dst : Nat} {k : Int}
    (hsrc : src < n) (hfl : ∀ f ∈ fl, f.2.1 < n) :
    ∀ (fuel : Nat) (st : SState), Inv fl src dst k st → st.ib = true →
      ∀ (r : Int) (o b : Bool), loop fl n dst k fuel st = some (r, o, b) → b = true := by
  intro fuel
  induction fuel with
  | zero =>
    intro st _ _ r o b h
    exact Option.noConfusion h
  | succ fuel ih =>
    intro st hInv hib r o b h
    rw [loop] at h
    cases hstep : step fl n dst k st with
    | done r1 o1 b1 =>
      rw [hstep] at h
      have he := Option.some.inj h
      have hb : b1 = b := congrArg (fun y => y.2.2) he
      subst hb
      -- every `done` branch of `step` carries `st.ib`
      cases hpop : popMin st.pq with
      | none =>
        simp only [step, hpop, StepOut.done.injEq] at hstep
        exact hstep.2.2 ▸ hib
      | some pr =>
        rcases pr with ⟨⟨c, v, s⟩, rest⟩
        simp only [step, hpop] at hstep
        by_cases hv : v = dst
        · rw [if_pos hv] at hstep
          obtain ⟨-, -, hb1⟩ := StepOut.done.inj hstep
          exact hb1 ▸ hib
        · rw [if_neg hv] at hstep
          by_cases hs : k < (s : Int)
          · rw [if_pos hs] at hstep
            exact StepOut.noConfusion hstep
          · rw [if_neg hs] at hstep
            exact StepOut.noConfusion hstep
    | next st1 =>
      rw [hstep] at h
      refine ih st1 (inv_step hInv hstep) ?_ r o b h
      cases hpop : popMin st.pq with
      | none =>
        simp only [step, hpop] at hstep
        exact StepOut.noConfusion hstep
      | some pr =>
        rcases pr with ⟨⟨c, v, s⟩, rest⟩
        simp only [step, hpop] at hstep
        by_cases hv : v = dst
        · rw [if_pos hv] at hstep
          exact StepOut.noConfusion hstep
        · rw [if_neg hv] at hstep
          by_cases hs : k < (s : Int)
          · rw [if_pos hs] at hstep
            cases hstep
            exact hib
          · rw [if_neg hs] at hstep
            cases hstep
            have hvn : v < n := by
              obtain ⟨es, hch, -, -, -, -⟩ := hInv.pqSound (c, v, s) (popMin_mem hpop)
              exact chain_end_lt hfl es src v hch hsrc
            have hscol : s + 1 < (k + 2).toNat := by
              rw [Int.lt_toNat]
              push_cast
              omega
            refine relaxAll_ib ?_ (fun e he => hfl _ (adjOf_mem.mp he)) hscol
            simp [hib, hvn]

/-! ### The overflow flag -/

theorem relaxAll_ov {n cols c s : Nat} {es : List (Nat × Nat)} {st : SState}
    (hov : st.ov = false) (hes : ∀ e ∈ es, c + e.2 ≤ intMax) :
    (relaxAll n cols c s es st).ov = false := by
  induction es generalizing st with
  | nil => exact hov
  | cons e es ih =>
    rw [relaxAll_cons]
    refine ih ?_ fun e1 he1 => hes e1 (List.mem_cons_of_mem e he1)
    have he : ¬ intMax < c + e.2 := not_lt.mpr (hes e (List.mem_cons_self e es))
    unfold relaxOne
    by_cases h : c + e.2 < st.dist (e.1, s + 1)
    · rw [if_pos h]
      simp [hov, he]
    · rw [if_neg h]
      simp [hov, he]

/-- While every queue entry's cost is bounded by `stops * B` for an edge
cost bound `B` with `(k + 2) * B ≤ INT_MAX`, no computed sum exceeds
`INT_MAX` and the overflow flag stays `false`. -/
theorem run_ov {fl : List Flight} {n src dst : Nat} {k : Int} {B : Nat}
    (hB : ∀ f ∈ fl, f.2.2 ≤ B) (hbound : (k + 2).toNat * B ≤ intMax) :
    ∀ (fuel : Nat) (st : SState), Inv fl src dst k st → st.ov = false →
      (∀ x ∈ st.pq, x.1 ≤ x.2.2 * B) →
      ∀ (r : Int) (o b : Bool), loop fl n dst k fuel st = some (r, o, b) → o = false := by
  intro fuel
  induction fuel with
  | zero =>
    intro st _ _ _ r o b h
    exact Option.noConfusion h
  | succ fuel ih =>
    intro st hInv hov hpqb r o b h
    rw [loop] at h
    cases hstep : step fl n dst k st with
    | done r1 o1 b1 =>
      rw [hstep] at h
      have he := Option.some.inj h
      have ho : o1 = o := congrArg (fun y => y.2.1) he
      subst ho
      cases hpop : popMin st.pq with
      | none =>
        simp only [step, hpop, StepOut.done.injEq] at hstep
        exact hstep.2.1 ▸ hov
      | some pr =>
        rcases pr with ⟨⟨c, v, s⟩, rest⟩
        simp only [step, hpop] at hstep
        by_cases hv : v = dst
        · rw [if_pos hv] at hstep
          obtain ⟨-, ho1, -⟩ := StepOut.done.inj hstep
          exact ho1 ▸ hov
        · rw [if_neg hv] at hstep
          by_cases hs : k < (s : Int)
          · rw [if_pos hs] at hstep
            exact StepOut.noConfusion hstep
          · rw [if_neg hs] at hstep
            exact StepOut.noConfusion hstep
    | next st1 =>
      rw [hstep] at h
      cases hpop : popMin st.pq with
      | none =>
        simp only [step, hpop] at hstep
        exact StepOut.noConfusion hstep
      | some pr =>
        rcases pr with ⟨⟨c, v, s⟩, rest⟩
        simp only [step, hpop] at hstep
        by_cases hv : v = dst
        · rw [if_pos hv] at hstep
          exact StepOut.noConfusion hstep
        · rw [if_neg hv] at hstep
          by_cases hs : k < (s : Int)
          · rw [if_pos hs] at hstep
            cases hstep
            refine ih _ (inv_guard hInv hpop hv hs) hov ?_ r o b h
            intro x hx
            exact hpqb x (popMin_rest_subset hpop x hx)
          · rw [if_neg hs] at hstep
            cases hstep
            have hc : c ≤ s * B := hpqb (c, v, s) (popMin_mem hpop)
            have hsk : s + 1 ≤ (k + 2).toNat := by
              have h1 : s < (k + 2).toNat := by
                rw [Int.lt_toNat]
                push_cast
                omega
              omega
            have hsB : (s + 1) * B ≤ intMax :=
              le_trans (Nat.mul_le_mul_right B hsk) hbound
            have hnc : ∀ e ∈ adjOf fl v, c + e.2 ≤ intMax := by
              intro e he
              have hcB : c + e.2 ≤ (s + 1) * B := by
                have h2 : e.2 ≤ B := hB _ (adjOf_mem.mp he)
                calc c + e.2 ≤ s * B + B := Nat.add_le_add hc h2
                  _ = (s + 1) * B := by ring
              exact le_trans hcB hsB
            refine ih _ (inv_expand hInv hpop hv (le_of_not_lt hs))
              (relaxAll_ov hov hnc) ?_ r o b h
            intro x hx
            have hleMid : ∀ p, (SState.mk rest st.dist st.ov
                (st.ib && decide (v < n))).dist p ≤ intMax := hInv.distLe
            rcases relaxAll_pq_new hleMid hx with hold | ⟨e, he, rfl, -⟩
            · exact hpqb x (popMin_rest_subset hpop x hold)
            · show c + e.2 ≤ (s + 1) * B
              have h2 : e.2 ≤ B := hB _ (adjOf_mem.mp he)
              calc c + e.2 ≤ s * B + B := Nat.add_le_add hc h2
                _ = (s + 1) * B := by ring

/-! ### The step relation (for the monotone-decrease invariant) -/

/-- `StepRel st st1` holds when one iteration of the `while` loop takes
state `st` to state `st1` (without returning). -/
def StepRel (fl : List Flight) (n dst : Nat) (k : Int) (st st1 : SState) : Prop :=
  step fl n dst k st = .next st1

theorem step_dist_mono {fl : List Flight} {n dst : Nat} {k : Int} {st st1 : SState}
    (h : StepRel fl n dst k st st1) : ∀ p, st1.dist p ≤ st.dist p := by
  unfold StepRel at h
  cases hpop : popMin st.pq with
  | none =>
    simp only [step, hpop] at h
    exact StepOut.noConfusion h
  | some pr =>
    rcases pr with ⟨⟨c, v, s⟩, rest⟩
    simp only [step, hpop] at h
    by_cases hv : v = dst
    · rw [if_pos hv] at h
      exact StepOut.noConfusion h
    · rw [if_neg hv] at h
      by_cases hs : k < (s : Int)
      · rw [if_pos hs] at h
        cases h
        exact fun p => le_refl _
      · rw [if_neg hs] at h
        cases h
        exact fun p => relaxAll_dist_le p

/-! ### The claims -/

/-- Claim C1 counterexample: the input `n = 3`,
`flights = [(0, 1, 2147483646), (1, 2, 2)]`, `src = 0`, `dst = 2`,
`k = 1` lies inside the claim's domain (all endpoints in `[0, n)`, all
costs non-negative `int` values, `k ≥ 0`), yet the `int` addition at cpp
line 72 computes `2147483646 + 2 > INT_MAX` and overflows.  Under the
standard two's-complement wrap the program pushes the wrapped cost
`-2147483648`, pops it first (it is minimal), and returns `-2147483648`:
a value other than `-1` that cannot equal the minimum path cost (every
path cost is a sum of non-negative costs).  The claim as stated is false
of the program. -/
theorem claim1_counterexample :
    findCheapestPriceW 3 [(0, 1, 2147483646), (1, 2, 2)] 0 2 1 = -2147483648 ∧
    (-2147483648 : Int) ≠ -1 ∧
    ∀ m : Nat, IsLeast (PathCosts [(0, 1, 2147483646), (1, 2, 2)] 0 2 1) m →
      (m : Int) ≠ -2147483648 := by
  refine ⟨by decide, by decide, ?_⟩
  intro m _
  omega

/-- Claim C1 (amended): restricted to inputs whose cost magnitudes are
bounded so that no computed sum can exceed `INT_MAX` (every edge cost at
most `B` with `(k + 2) * B ≤ INT_MAX`) — the regime in which the `int`
arithmetic is exact — if the program (the wrapping model, which under
this bound provably coincides with the exact model) returns a value
other than `-1`, that value equals the minimum sum of edge costs over
all paths from `src` to `dst` that use at most `k` intermediate nodes. -/
theorem claim1_min_cost_bounded {n : Nat} {fl : List Flight} {src dst : Nat} {k : Int}
    {B : Nat} (hn : 1 ≤ n) (hsrc : src < n) (hdst : dst < n)
    (hfl : ∀ f ∈ fl, f.1 < n ∧ f.2.1 < n) (hk : 0 ≤ k)
    (hB : ∀ f ∈ fl, f.2.2 ≤ B) (hbound : (k + 2).toNat * B ≤ intMax)
    (hne : findCheapestPriceW n fl src dst k ≠ -1) :
    ∃ m : Nat, findCheapestPriceW n fl src dst k = (m : Int) ∧
      IsLeast (PathCosts fl src dst k) m := by
  rw [findCheapestPriceW_eq (by omega) hB hbound] at hne ⊢
  have hspec := @findCheapestPrice_spec n fl src dst k (fun f hf => (hfl f hf).2) (by omega)
  rcases hspec with ⟨h1, -⟩ | ⟨m, hm, -, hmem, hmin⟩
  · exact absurd h1 hne
  · exact ⟨m, hm, hmem, hmin⟩

theorem claim1_witness :
    ∃ m : Nat, findCheapestPriceW 5 exampleFlights 0 4 1 = (m : Int) ∧
      IsLeast (PathCosts exampleFlights 0 4 1) m :=
  @claim1_min_cost_bounded 5 exampleFlights 0 4 1 700 (by decide) (by decide) (by decide)
    (by decide) (by decide) (by decide) (by decide) (by decide)

/-- Claim C2 counterexample: on the valid input `n = 2`,
`flights = [(0, 1, 2147483647)]`, `src = 0`, `dst = 1`, `k = 0` — a single
flight whose non-negative cost is exactly `INT_MAX` — the function
returns `-1` although an admissible path (the direct flight, `0`
intermediate stops) exists: the relaxation test
`new_cost < dist[next][stops + 1]` (cpp line 75) compares `INT_MAX`
against the `INT_MAX` initialisation and prunes the only path.  This
refutes "returns `-1` if and only if no path with at most `k`
intermediate stops exists" as stated. -/
theorem claim2_counterexample :
    findCheapestPrice 2 [(0, 1, 2147483647)] 0 1 0 = -1 ∧
    Admissible [(0, 1, 2147483647)] 0 1 0 [(0, 1, 2147483647)] := by
  constructor
  · decide
  · exact ⟨⟨List.mem_singleton.mpr rfl, rfl, rfl⟩, by decide⟩

/-- Claim C2 (amended): restricted to inputs whose cost magnitudes are
bounded so that no sum can reach `INT_MAX` (every edge cost at most `B`
with `(k + 2) * B ≤ INT_MAX`), the program (the wrapping model, which
under this bound coincides with the exact model) returns `-1` if and
only if no path from `src` to `dst` with at most `k` intermediate stops
exists.  The restriction is forced: at total cost exactly `INT_MAX` the
relaxation test prunes an existing path (see the counterexample, defined
behaviour), and above `INT_MAX` the `int` addition at cpp line 72
overflows before the comparison, so no unconditional iff about the
return value can hold there. -/
theorem claim2_unreachable_iff_bounded {n : Nat} {fl : List Flight} {src dst : Nat}
    {k : Int} {B : Nat} (hn : 1 ≤ n) (hsrc : src < n) (hdst : dst < n)
    (hfl : ∀ f ∈ fl, f.1 < n ∧ f.2.1 < n) (hk : 0 ≤ k)
    (hB : ∀ f ∈ fl, f.2.2 ≤ B) (hbound : (k + 2).toNat * B ≤ intMax) :
    (findCheapestPriceW n fl src dst k = -1 ↔
      ¬ ∃ es, Admissible fl src dst k es) := by
  rw [findCheapestPriceW_eq (by omega) hB hbound]
  have hspec := @findCheapestPrice_spec n fl src dst k (fun f hf => (hfl f hf).2) (by omega)
  rcases hspec with ⟨h1, hall⟩ | ⟨m, hm, hlt, hmem, -⟩
  · constructor
    · rintro - ⟨es, hadm⟩
      have hclt := costOf_lt_intMax_of_bounded hB hbound hadm.1 hadm.2
      exact absurd (hall es hadm) (not_le.mpr hclt)
    · intro _
      exact h1
  · constructor
    · intro h
      rw [hm] at h
      omega
    · intro hno
      exfalso
      rcases hmem with ⟨es, hadm, -⟩
      exact hno ⟨es, hadm⟩

theorem claim2_witness :
    findCheapestPriceW 2 [] 0 1 0 = -1 ↔ ¬ ∃ es, Admissible [] 0 1 0 es :=
  @claim2_unreachable_iff_bounded 2 [] 0 1 0 0 (by decide) (by decide) (by decide)
    (by decide) (by decide) (by decide) (by decide)

/-- Claim C3: with valid inputs and `src = dst`, `findCheapestPrice`
returns `0` regardless of the edge list and of `k ≥ 0`: the seed entry
`{0, src, 0}` is popped first and the destination check fires at once. -/
theorem claim3_src_eq_dst {n : Nat} {fl : List Flight} {src dst : Nat} {k : Int}
    (hn : 1 ≤ n) (heq : src = dst) (hsrc : src < n)
    (hfl : ∀ f ∈ fl, f.1 < n ∧ f.2.1 < n) (hk : 0 ≤ k) :
    findCheapestPrice n fl src dst k = 0 := by
  subst heq
  exact findCheapestPrice_self n fl src k

theorem claim3_witness : findCheapestPrice 5 exampleFlights 2 2 3 = 0 :=
  claim3_src_eq_dst (by decide) rfl (by decide) (by decide) (by decide)

/-- Claim C4 counterexample: the input `n = 4`,
`flights = [(0, 3, 100), (0, 1, 5), (1, 2, 2147483647), (2, 3, 2147483643)]`,
`src = 0`, `dst = 3` lies inside the claim's domain (endpoints in range,
non-negative `int` costs), yet under two's-complement wrap the program
returns `100` for `k1 = 0` (the direct flight) and `-1` for `k2 = 2`:
the three-flight path sums to `4294967295`, which wraps to `-1`, is
popped first, and is returned as if the destination were unreachable.
More stops produced a strictly worse ("unreachable") answer, refuting
the claimed monotonicity over the full domain. -/
theorem claim4_counterexample :
    findCheapestPriceW 4 [(0, 3, 100), (0, 1, 5), (1, 2, 2147483647), (2, 3, 2147483643)]
        0 3 0 = 100 ∧
    findCheapestPriceW 4 [(0, 3, 100), (0, 1, 5), (1, 2, 2147483647), (2, 3, 2147483643)]
        0 3 2 = -1 ∧
    ¬ (findCheapestPriceW 4 [(0, 3, 100), (0, 1, 5), (1, 2, 2147483647), (2, 3, 2147483643)]
          0 3 0 = -1 ∨
       (findCheapestPriceW 4 [(0, 3, 100), (0, 1, 5), (1, 2, 2147483647), (2, 3, 2147483643)]
          0 3 2 ≠ -1 ∧
        findCheapestPriceW 4 [(0, 3, 100), (0, 1, 5), (1, 2, 2147483647), (2, 3, 2147483643)]
          0 3 2 ≤
        findCheapestPriceW 4 [(0, 3, 100), (0, 1, 5), (1, 2, 2147483647), (2, 3, 2147483643)]
          0 3 0)) :=
  ⟨by decide, by decide, by decide⟩

/-- Claim C4 (amended): restricted to inputs whose cost magnitudes are
bounded so that no sum can overflow at either budget (every edge cost at
most `B` with `(k2 + 2) * B ≤ INT_MAX`), for `0 ≤ k1 ≤ k2` the result of
the program (the wrapping model, coinciding with the exact model under
the bound) with budget `k2` is no more expensive than with `k1`, where
`-1` counts as costlier than every reachable cost. -/
theorem claim4_monotone_bounded {n : Nat} {fl : List Flight} {src dst : Nat}
    {k1 k2 : Int} {B : Nat} (hn : 1 ≤ n) (hsrc : src < n) (hdst : dst < n)
    (hfl : ∀ f ∈ fl, f.1 < n ∧ f.2.1 < n) (hk1 : 0 ≤ k1) (h12 : k1 ≤ k2)
    (hB : ∀ f ∈ fl, f.2.2 ≤ B) (hbound : (k2 + 2).toNat * B ≤ intMax) :
    findCheapestPriceW n fl src dst k1 = -1 ∨
      (findCheapestPriceW n fl src dst k2 ≠ -1 ∧
        findCheapestPriceW n fl src dst k2 ≤ findCheapestPriceW n fl src dst k1) := by
  have hb1 : (k1 + 2).toNat * B ≤ intMax := by
    refine le_trans (Nat.mul_le_mul_right B (Int.toNat_le_toNat (by omega))) hbound
  rw [findCheapestPriceW_eq (by omega) hB hb1, findCheapestPriceW_eq (by omega) hB hbound]
  have hs1 := @findCheapestPrice_spec n fl src dst k1 (fun f hf => (hfl f hf).2) (by omega)
  have hs2 := @findCheapestPrice_spec n fl src dst k2 (fun f hf => (hfl f hf).2) (by omega)
  rcases hs1 with ⟨h1, -⟩ | ⟨m1, hm1, hlt1, hmem1, -⟩
  · exact Or.inl h1
  · right
    have hmem2 : m1 ∈ PathCosts fl src dst k2 := by
      rcases hmem1 with ⟨es, ⟨hch, hlen⟩, hcost⟩
      exact ⟨es, ⟨hch, by omega⟩, hcost⟩
    rcases hs2 with ⟨h2, hall2⟩ | ⟨m2, hm2, -, -, hmin2⟩
    · exfalso
      rcases hmem2 with ⟨es, hadm2, hcost⟩
      have h3 := hall2 es hadm2
      omega
    · constructor
      · rw [hm2]
        omega
      · rw [hm1, hm2]
        have h4 := hmin2 m1 hmem2
        exact_mod_cast h4

theorem claim4_witness :
    findCheapestPriceW 5 exampleFlights 0 4 1 = -1 ∨
      (findCheapestPriceW 5 exampleFlights 0 4 2 ≠ -1 ∧
        findCheapestPriceW 5 exampleFlights 0 4 2 ≤ findCheapestPriceW 5 exampleFlights 0 4 1) :=
  @claim4_monotone_bounded 5 exampleFlights 0 4 1 2 700 (by decide) (by decide) (by decide)
    (by decide) (by decide) (by decide) (by decide) (by decide)

/-- Claim C5: on the concrete 5-node example graph of `main`
(cpp lines 99-108) with `src = 0` (New York) and `dst = 4` (Rome):
`850` for `k = 1`, `850` for `k = 2`, and `-1` for `k = 0`. -/
theorem claim5_example_scenario :
    findCheapestPrice 5 exampleFlights 0 4 1 = 850 ∧
    findCheapestPrice 5 exampleFlights 0 4 2 = 850 ∧
    findCheapestPrice 5 exampleFlights 0 4 0 = -1 :=
  ⟨by decide, by decide, by decide⟩

/-- Claim C6: with valid inputs (`n ≥ 1`, `src`, `dst` and all edge
endpoints in `[0, n)`, `k ≥ 0`), every container access in
`findCheapestPrice` is in bounds: `adj` is only indexed by cities in
`[0, n)` and `dist` only by a city in `[0, n)` and a stop count in
`[0, k + 1]` (the table has `k + 2` columns, and the stops-exceeded guard
ensures `current_stops + 1 ≤ k + 1` at every `dist` access), so the
instrumented in-bounds flag is still `true` when the search completes. -/
theorem claim6_accesses_in_bounds {n : Nat} {fl : List Flight} {src dst : Nat} {k : Int}
    (hn : 1 ≤ n) (hsrc : src < n) (hdst : dst < n)
    (hfl : ∀ f ∈ fl, f.1 < n ∧ f.2.1 < n) (hk : 0 ≤ k) :
    accessesInBounds n fl src dst k = true := by
  obtain ⟨out, hout⟩ : ∃ out, runAux n fl src dst k = some out :=
    runAux_some (fun f hf => (hfl f hf).2)
  rcases out with ⟨r, o, b⟩
  have hloop : loop fl n dst k (fuelFor n ((k + 2).toNat))
      (initState fl n src ((k + 2).toNat)) = some (r, o, b) := hout
  have hib0 : (initState fl n src ((k + 2).toNat)).ib = true := by
    simp only [initState]
    rw [Bool.and_eq_true, Bool.and_eq_true]
    refine ⟨?_, ?_, ?_⟩
    · rw [List.all_eq_true]
      intro f hf
      exact decide_eq_true (hfl f hf).1
    · exact decide_eq_true hsrc
    · apply decide_eq_true
      rw [Int.lt_toNat]
      omega
  have hb : b = true :=
    run_ib hsrc (fun f hf => (hfl f hf).2) _ _ (inv_init (by omega)) hib0 r o b hloop
  simp only [accessesInBounds, hout]
  exact hb

theorem claim6_witness : accessesInBounds 5 exampleFlights 0 4 1 = true :=
  claim6_accesses_in_bounds (by decide) (by decide) (by decide) (by decide) (by decide)

/-- Claim C7: with valid inputs, the priority-queue search loop
terminates: the supplied fuel (derived from the potential
`|pq| + Σ dist`, finite because each push strictly decreases one of the
`n * (k + 2)` table entries) is never exhausted, and every continuing
iteration strictly decreases that potential. -/
theorem claim7_terminates {n : Nat} {fl : List Flight} {src dst : Nat} {k : Int}
    (hn : 1 ≤ n) (hsrc : src < n) (hdst : dst < n)
    (hfl : ∀ f ∈ fl, f.1 < n ∧ f.2.1 < n) (hk : 0 ≤ k) :
    (∃ out, runAux n fl src dst k = some out) ∧
    ∀ st st1 : SState, StepRel fl n dst k st st1 →
      phi n ((k + 2).toNat) st1 < phi n ((k + 2).toNat) st :=
  ⟨runAux_some (fun f hf => (hfl f hf).2),
   fun _ _ h => step_phi (fun f hf => (hfl f hf).2) h⟩

theorem claim7_witness :
    (∃ out, runAux 5 exampleFlights 0 4 1 = some out) ∧
    ∀ st st1 : SState, StepRel exampleFlights 5 4 1 st st1 →
      phi 5 ((1 + 2 : Int).toNat) st1 < phi 5 ((1 + 2 : Int).toNat) st :=
  claim7_terminates (by decide) (by decide) (by decide) (by decide) (by decide)

/-- Claim C8: throughout a run, the best-known-cost table holds at most
one value per `(node, stops)` pair (it is a function of the pair in this
model) and each entry only ever decreases: across any sequence of loop
iterations every `dist` entry is no larger than before, and whenever an
entry changed it strictly decreased (each relaxation writes a value
strictly smaller than the one it replaces, cpp lines 75-78). -/
theorem claim8_dist_monotone {fl : List Flight} {n dst : Nat} {k : Int} {st st1 : SState}
    (h : Relation.ReflTransGen (StepRel fl n dst k) st st1) (p : Nat × Nat) :
    st1.dist p ≤ st.dist p ∧ (st1.dist p ≠ st.dist p → st1.dist p < st.dist p) := by
  have hle : st1.dist p ≤ st.dist p := by
    induction h with
    | refl => exact le_refl _
    | tail hab hbc ih => exact le_trans (step_dist_mono hbc p) ih
  exact ⟨hle, fun hne => lt_of_le_of_ne hle hne⟩

theorem claim8_witness :
    (relaxAll 5 3 0 0 (adjOf exampleFlights 0)
        { (initState exampleFlights 5 0 3) with
            pq := [],
            ib := (initState exampleFlights 5 0 3).ib && decide (0 < 5) }).dist (1, 1)
      ≤ (initState exampleFlights 5 0 3).dist (1, 1) ∧
    ((relaxAll 5 3 0 0 (adjOf exampleFlights 0)
        { (initState exampleFlights 5 0 3) with
            pq := [],
            ib := (initState exampleFlights 5 0 3).ib && decide (0 < 5) }).dist (1, 1)
        ≠ (initState exampleFlights 5 0 3).dist (1, 1) →
      (relaxAll 5 3 0 0 (adjOf exampleFlights 0)
        { (initState exampleFlights 5 0 3) with
            pq := [],
            ib := (initState exampleFlights 5 0 3).ib && decide (0 < 5) }).dist (1, 1)
        < (initState exampleFlights 5 0 3).dist (1, 1)) :=
  @claim8_dist_monotone exampleFlights 5 4 1 (initState exampleFlights 5 0 3)
    (relaxAll 5 3 0 0 (adjOf exampleFlights 0)
      { (initState exampleFlights 5 0 3) with
          pq := [],
          ib := (initState exampleFlights 5 0 3).ib && decide (0 < 5) })
    (Relation.ReflTransGen.single rfl) (1, 1)

/-- Claim C9 counterexample: on the valid input `n = 3`,
`flights = [(0, 1, 2147483646), (1, 2, 2)]` (all endpoints in range, all
costs non-negative valid `int` values), `src = 0`, `dst = 2`, `k = 1`,
the run computes `new_cost = 2147483646 + 2 = 2147483648 > INT_MAX`: the
C++ `int` addition at cpp line 72 overflows.  The implementation contains
no overflow guard and does not bound cost magnitudes, refuting the claim
that accumulated sums cannot overflow for all such inputs. -/
theorem claim9_counterexample :
    overflowHappened 3 [(0, 1, 2147483646), (1, 2, 2)] 0 2 1 = true ∧
    (∀ f ∈ ([(0, 1, 2147483646), (1, 2, 2)] : List Flight),
      f.1 < 3 ∧ f.2.1 < 3 ∧ f.2.2 ≤ 2147483647) :=
  ⟨by decide, by decide⟩

/-- Claim C9 (amended): accumulated-cost additions are exact and never
exceed `INT_MAX` **provided** the cost magnitudes are bounded: if every
edge cost is at most `B` and `(k + 2) * B ≤ INT_MAX` then no computed
`new_cost` exceeds `INT_MAX` (every queue entry with `s` stops costs at
most `s * B` and expansions only happen for `s ≤ k`).  Without such a
bound the addition can overflow (see the counterexample). -/
theorem claim9_no_overflow_when_bounded {n : Nat} {fl : List Flight} {src dst : Nat}
    {k : Int} {B : Nat} (hn : 1 ≤ n) (hsrc : src < n) (hdst : dst < n)
    (hfl : ∀ f ∈ fl, f.1 < n ∧ f.2.1 < n) (hk : 0 ≤ k)
    (hB : ∀ f ∈ fl, f.2.2 ≤ B) (hbound : (k + 2).toNat * B ≤ intMax) :
    overflowHappened n fl src dst k = false := by
  obtain ⟨out, hout⟩ : ∃ out, runAux n fl src dst k = some out :=
    runAux_some (fun f hf => (hfl f hf).2)
  rcases out with ⟨r, o, b⟩
  have hloop : loop fl n dst k (fuelFor n ((k + 2).toNat))
      (initState fl n src ((k + 2).toNat)) = some (r, o, b) := hout
  have ho : o = false := by
    refine run_ov hB hbound _ _ (inv_init (by omega)) rfl ?_ r o b hloop
    intro x hx
    simp only [initState, List.mem_singleton] at hx
    subst hx
    exact Nat.zero_le _
  simp only [overflowHappened, hout]
  exact ho

theorem claim9_witness : overflowHappened 5 exampleFlights 0 4 1 = false :=
  @claim9_no_overflow_when_bounded 5 exampleFlights 0 4 1 700 (by decide) (by decide)
    (by decide) (by decide) (by decide) (by decide) (by decide)

/-- Claim C10: for `k = -1` with otherwise valid inputs,
`findCheapestPrice` returns `0` when `src = dst` (the seed is popped and
answers immediately) and `-1` otherwise (the seed fails the destination
check, is discarded by the stops-exceeded guard since `0 > -1`, and the
queue empties). -/
theorem claim10_k_neg_one {n : Nat} {fl : List Flight} {src dst : Nat}
    (hn : 1 ≤ n) (hsrc : src < n) (hdst : dst < n)
    (hfl : ∀ f ∈ fl, f.1 < n ∧ f.2.1 < n) :
    (src = dst → findCheapestPrice n fl src dst (-1) = 0) ∧
    (src ≠ dst → findCheapestPrice n fl src dst (-1) = -1) := by
  constructor
  · intro h
    subst h
    exact findCheapestPrice_self n fl src (-1)
  · intro h
    exact findCheapestPrice_neg_one n fl h

theorem claim10_witness :
    (0 = 1 → findCheapestPrice 2 [(0, 1, 5)] 0 1 (-1) = 0) ∧
    (0 ≠ 1 → findCheapestPrice 2 [(0, 1, 5)] 0 1 (-1) = -1) :=
  claim10_k_neg_one (by decide) (by decide) (by decide) (by decide)

end CheapestFlights
